import Mathlib

/-!
# Verification of the disk-cleaner core (`src/disk_cleaner.py`)

Shallow embedding of the core algorithms of `disk_cleaner.py`:
path classification (`is_path_protected`, `is_safe_to_delete`,
`is_protected`), the recursive scanner (`scan_directory` /
`scan_with_progress`), the duplicate-path reconciliation and ranking
inside `analyze`, the deleter (`delete_item`), and threshold parsing.

Path strings are modelled as `List Char`.  `pathlib.Path(path).parts`
is modelled by the Windows parsing rules of `pathlib` (the modern
CPython `ntpath.splitroot`): the alternative separator is normalised to
the primary one, the drive and root are split off (a UNC path absorbs
host and share into the drive anchor, a second character `:` makes a
drive-letter path), and the relative tail is chunked at separators with
empty and single-dot components dropped; the anchor, when present, is
one part.  The `\\?\` long-path prefix forms are not modelled:
`get_long_path_name` only adds that prefix beyond 260 characters and is
modelled as the identity on the short paths considered here.  The
cosmetic fix-up `pathlib` applies to a bare host-share anchor with no
tail (appending a trailing separator to the anchor string) is not
modelled; that anchor contains separators either way, so it can never
equal a protected name.  The Python `str.lower` is modelled on the
ASCII range, the only range occurring in the tables and in the paths of
interest.
-/

def chars (s : String) : List Char := s.toList

/-- ASCII lower-casing of one character (model of `str.lower` per char). -/
def lowerChar (c : Char) : Char :=
  if 'A' ≤ c ∧ c ≤ 'Z' then Char.ofNat (c.toNat + 32) else c

/-- Model of Python `str.lower()` on the path alphabet. -/
def lowerStr (s : List Char) : List Char := s.map lowerChar

/-- The two path separator characters recognised on the reference platform. -/
def isSep (c : Char) : Bool := c = '/' ∨ c = '\\'

/-- The primary Windows separator, to which `pathlib` normalises the
    alternative separator before parsing. -/
def SEP : Char := '\\'

/-- Normalisation of one character: the alternative separator becomes the
    primary one. -/
def charNorm (c : Char) : Char := if c = '/' then '\\' else c

/-- Separator normalisation applied to a whole path string, as the
    `pathlib` parser does before splitting off the root. -/
def normSeps (p : List Char) : List Char := p.map charNorm

/-- Index of the next primary separator at or after position `start`. -/
def findSepFrom (q : List Char) (start : Nat) : Option Nat :=
  match (q.drop start).findIdx? (fun c => c = SEP) with
  | none => none
  | some i => some (start + i)

/-- Model of `ntpath.splitroot` on a separator-normalised string: the
    drive, root and relative tail used by `pathlib` on Windows.  A path
    opening with two separators is a UNC path whose host and share are
    absorbed into the drive (the whole string when no complete
    host-share pair follows); a second character `:` makes a
    drive-letter path, absolute when a separator follows the colon and
    drive-relative otherwise; a single leading separator is a root; any
    other string is purely relative. -/
def splitRoot (q : List Char) : List Char × List Char × List Char :=
  match q with
  | [] => ([], [], [])
  | [c1] => if c1 = SEP then ([], [SEP], []) else ([], [], [c1])
  | c1 :: c2 :: rest =>
    if c1 = SEP then
      if c2 = SEP then
        match findSepFrom (c1 :: c2 :: rest) 2 with
        | none => (c1 :: c2 :: rest, [], [])
        | some i =>
          match findSepFrom (c1 :: c2 :: rest) (i + 1) with
          | none => (c1 :: c2 :: rest, [], [])
          | some j => ((c1 :: c2 :: rest).take j, [SEP], (c1 :: c2 :: rest).drop (j + 1))
      else ([], [SEP], c2 :: rest)
    else if c2 = ':' then
      match rest with
      | [] => ([c1, ':'], [], [])
      | c3 :: rest2 =>
        if c3 = SEP then ([c1, ':'], [SEP], rest2) else ([c1, ':'], [], c3 :: rest2)
    else ([], [], c1 :: c2 :: rest)

/-- Split a string at separator characters (chunks between separators,
    including empty chunks); applied to the relative tail. -/
def splitSeps : List Char → List (List Char)
  | [] => [[]]
  | c :: cs =>
    match splitSeps cs with
    | [] => [[c]]
    | h :: t => if isSep c then [] :: h :: t else (c :: h) :: t

/-- The parsed relative components of a path: the relative tail after
    `splitRoot`, chunked at separators, with empty and single-dot
    components dropped, exactly as the `pathlib` parser builds them. -/
def pathComponents (p : List Char) : List (List Char) :=
  (splitSeps (splitRoot (normSeps p)).2.2).filter
    (fun part => !part.isEmpty && !(part == chars "."))

/-- The anchor of a path: drive plus root, empty for purely relative
    paths. -/
def pathAnchor (p : List Char) : List Char :=
  (splitRoot (normSeps p)).1 ++ (splitRoot (normSeps p)).2.1

/-- Model of `pathlib.Path(path).parts` on Windows: the anchor, when
    present, followed by the parsed relative components.  In particular
    the host and share of a UNC path sit only inside the single anchor
    part, and a drive-relative path such as C:Windows has the drive and
    the name as two separate parts. -/
def pathParts (p : List Char) : List (List Char) :=
  if (pathAnchor p).isEmpty then pathComponents p
  else pathAnchor p :: pathComponents p

/-- Model of `pathlib.Path(path).name`: the last parsed relative
    component, empty when the path is nothing but its anchor. -/
def baseName (p : List Char) : List Char := (pathComponents p).getLastD []

/-- The `SPACE_HOGS` table of `disk_cleaner.py` (lines 38-54), in source
    order: name pattern paired with its description string. -/
def SPACE_HOGS : List (List Char × List Char) :=
  [ (chars "node_modules", chars "NPM packages (usually safe to delete if not actively developing)")
  , (chars ".conda", chars "Conda environments (safe if not needed)")
  , (chars ".venv", chars "Python virtual environments (safe if not needed)")
  , (chars ".cache", chars "Cache files (usually safe to delete)")
  , (chars ".npm", chars "NPM cache (safe to delete)")
  , (chars "temp", chars "Temporary files (safe to delete)")
  , (chars "tmp", chars "Temporary files (safe to delete)")
  , (chars ".git", chars "Git repositories (contains version history, be careful)")
  , (chars "build", chars "Build artifacts (usually safe if not actively building)")
  , (chars "dist", chars "Distribution files (usually safe if not needed)")
  , (chars "logs", chars "Log files (usually safe to delete old logs)")
  , (chars ".nuget", chars "NuGet package cache (safe if not actively developing)")
  , (chars ".gradle", chars "Gradle build system cache (safe if not actively developing)")
  , (chars ".m2", chars "Maven repository (safe if not actively developing)")
  , (chars "AppData", chars "Application data (may contain important settings)") ]

/-- The `PROTECTED_FOLDERS` set of `disk_cleaner.py` (lines 57-61). -/
def PROTECTED_FOLDERS : List (List Char) :=
  [ chars "Windows", chars "Program Files", chars "Program Files (x86)"
  , chars "ProgramData", chars "System32", chars "System Volume Information"
  , chars "$Recycle.Bin", chars "$WINDOWS.~BT", chars "pagefile.sys"
  , chars "hiberfil.sys", chars "swapfile.sys", chars "bootmgr" ]

/-- Embedding of `is_path_protected` (lines 96-105): `part in PROTECTED_FOLDERS` is a
    case-sensitive membership test on each segment of
    `pathlib.Path(path).parts`. -/
def is_path_protected (p : List Char) : Bool :=
  (pathParts p).any (fun part => PROTECTED_FOLDERS.contains part)

/-- The space-hog lookup loop of `is_safe_to_delete` (lines 121-126): the
    first table pattern matching the final segment exactly or
    case-insensitively, with its description. -/
def hogDescription (name : List Char) : Option (List Char) :=
  (SPACE_HOGS.find? (fun kv => name == kv.1 || lowerStr name == lowerStr kv.1)).map (fun kv => kv.2)

/-- Embedding of `is_safe_to_delete` (lines 107-129). -/
def is_safe_to_delete (p : List Char) : Bool × List Char :=
  if is_path_protected p then (false, chars "System protected")
  else
    match hogDescription (baseName p) with
    | some desc =>
      if decide ((chars "safe") <:+: lowerStr desc) then (true, desc) else (false, desc)
    | none => (false, chars "Unknown")

/-- One protected-name test of `is_protected` (lines 544-551): the four
    boolean alternatives checked against the lower-cased path, in source
    order. -/
def protSegmentHit (pl protl : List Char) : Bool :=
  decide (('\\' :: protl ++ ['\\']) <:+: pl) ||
  decide (('\\' :: protl) <:+ pl) ||
  decide (('/' :: protl ++ ['/']) <:+: pl) ||
  decide (('/' :: protl) <:+ pl)

/-- Embedding of `is_protected` (lines 540-553): case-insensitive, separator-delimited
    substring test for each protected name. -/
def is_protected (p : List Char) : Bool :=
  PROTECTED_FOLDERS.any (fun prot => protSegmentHit (lowerStr p) (lowerStr prot))

/-- One scan result tuple `(path, size, is_file, is_safe, reason)` as
    produced by `scan_directory` / `scan_with_progress`. -/
structure ScanEntry where
  path : List Char
  size : Nat
  isFile : Bool
  isSafe : Bool
  reason : List Char
deriving DecidableEq

/-- Build the result tuple for a path: size and kind plus the
    classification from `is_safe_to_delete`. -/
def mkEntry (p : List Char) (size : Nat) (isFile : Bool) : ScanEntry :=
  ⟨p, size, isFile, (is_safe_to_delete p).1, (is_safe_to_delete p).2⟩

/-- Paths of `os.scandir` entries: parent path joined with the child name by the
    platform separator. -/
def entryPath (parent name : List Char) : List Char := parent ++ '\\' :: name

/-- A filesystem subtree: the model input of `scan_directory`.  `hidden` is
    the platform hidden attribute consulted by the scanner. -/
inductive FSEntry where
  | file (name : List Char) (size : Nat) (hidden : Bool)
  | dir  (name : List Char) (hidden : Bool) (children : List FSEntry)

def FSEntry.hiddenFlag : FSEntry → Bool
  | .file _ _ h => h
  | .dir _ h _ => h

def FSEntry.entryName : FSEntry → List Char
  | .file n _ _ => n
  | .dir n _ _ => n

/-- Python `sum(size for _, size, _, _, _ in sub_results)` (line 207/391). -/
def sumSizes (es : List ScanEntry) : Nat := (es.map (fun e => e.size)).sum

/-- Phase one of the directory loop of `scan_directory` (lines 179-196):
    the entries emitted for immediate file children, in enumeration order.
    A child is skipped when `only_hidden` holds and it is not hidden; a
    file child is emitted when its size meets the threshold. -/
def scanFiles (p : List Char) (oh : Bool) (t : Nat) : List FSEntry → List ScanEntry
  | [] => []
  | .file n sz h :: cs =>
    if oh && !h then scanFiles p oh t cs
    else if t ≤ sz then mkEntry (entryPath p n) sz true :: scanFiles p oh t cs
    else scanFiles p oh t cs
  | .dir _ _ _ :: cs => scanFiles p oh t cs

mutual
/-- Embedding of `scan_directory(path, only_hidden, threshold)` (lines 141-224), where
    the filesystem object at `path` is `e`.  `scan_with_progress`
    (lines 344-405) is the same function plus a progress side channel. -/
def scanFS (p : List Char) (oh : Bool) (t : Nat) : FSEntry → List ScanEntry
  | .file _ sz h =>
    if t ≤ sz then (if !oh || h then [mkEntry p sz true] else []) else []
  | .dir _ _ cs => scanFiles p oh t cs ++ scanSubs p oh t cs

/-- Phase two of the directory loop (lines 200-219): for each subdirectory
    child surviving the hidden filter, the recursive results followed by
    an entry for the directory itself when the sum of the sizes of the recursive
    result tuples (`sub_size`) meets the threshold. -/
def scanSubs (p : List Char) (oh : Bool) (t : Nat) : List FSEntry → List ScanEntry
  | [] => []
  | .file _ _ _ :: cs => scanSubs p oh t cs
  | .dir n h gs :: cs =>
    if oh && !h then scanSubs p oh t cs
    else
      (scanFS (entryPath p n) oh t (.dir n h gs) ++
        (if t ≤ sumSizes (scanFS (entryPath p n) oh t (.dir n h gs)) then
          [mkEntry (entryPath p n) (sumSizes (scanFS (entryPath p n) oh t (.dir n h gs))) false]
        else [])) ++ scanSubs p oh t cs
end

mutual
/-- The size the spec intends for a directory: the sum of the sizes of all
    files beneath it, every level included, no threshold involved
    (spec section 3 invariant; used to compare against the scanner). -/
def totalFileBytes : FSEntry → Nat
  | .file _ sz _ => sz
  | .dir _ _ cs => totalFileBytesList cs

def totalFileBytesList : List FSEntry → Nat
  | [] => 0
  | c :: cs => totalFileBytes c + totalFileBytesList cs
end

/-- One step of the duplicate filter of `analyze` (lines 414-418): insert a
    result tuple into the ordered map, replacing an existing entry of the
    same path only when the new size is strictly larger (the replaced
    entry keeps its position, as a Python dict update does). -/
def insertEntry (acc : List ScanEntry) (e : ScanEntry) : List ScanEntry :=
  if acc.any (fun x => x.path == e.path) then
    acc.map (fun x => if x.path == e.path && decide (x.size < e.size) then e else x)
  else acc ++ [e]

/-- The duplicate filter of `analyze` (lines 412-420): `path_dict` built in
    input order, read back as `list(path_dict.values())`. -/
def reconcile (es : List ScanEntry) : List ScanEntry := es.foldl insertEntry []

/-- Embedding of `filtered_results.sort(key=lambda x: x[1], reverse=True)` (line 423):
    the Python stable sort, descending by size, modelled by the stable
    `List.mergeSort`. -/
def sortBySizeDesc (es : List ScanEntry) : List ScanEntry :=
  es.mergeSort (fun a b => decide (b.size ≤ a.size))

/-- Python slice `l[:n]` for an `int` bound `n`: a nonnegative bound takes
    the first `n` elements (clamped); a negative bound drops the last
    `|n|` elements (clamped). -/
def pySlice (n : Int) (l : List α) : List α :=
  if 0 ≤ n then l.take n.toNat else l.take (l.length - (-n).toNat)

/-- Reconciliation plus ranking of `analyze` (lines 412-426): deduplicate,
    stable-sort descending by size, truncate to `top_results` via the
    slice `filtered_results[:top]`. -/
def rankedView (top : Int) (es : List ScanEntry) : List ScanEntry :=
  pySlice top (sortBySizeDesc (reconcile es))

/-- Outcome of the underlying removal call (`os.remove` / `shutil.rmtree`)
    in `delete_item`. -/
inductive RmOutcome where
  | ok
  | permErr
  | otherErr
deriving DecidableEq

/-- The environment `delete_item` (lines 226-254) interacts with: the kind
    of the path, the outcome the removal call raises, the admin status
    consulted by `is_admin()`, and the answer of the user to the retry
    confirmation prompt. -/
structure DeleteEnv where
  isFile : Bool
  isDir : Bool
  rmOutcome : RmOutcome
  isAdmin : Bool
  confirmRetry : Bool
deriving DecidableEq

/-- Observable side effects of `delete_item`, in order of occurrence.
    `runAsAdmin` records the call to `run_as_admin()`, which re-launches
    the process elevated and exits. -/
inductive DeleteAction where
  | printPermissionDenied
  | askRetry
  | runAsAdmin
  | printOtherError
deriving DecidableEq

/-- Embedding of `delete_item(path)` (lines 226-254): returned boolean paired with the
    side effects performed.  The boolean is the value returned when the
    process continues (after `run_as_admin` the process is replaced, which
    the action list records). -/
def delete_item (env : DeleteEnv) : Bool × List DeleteAction :=
  if env.isFile || env.isDir then
    match env.rmOutcome with
    | .ok => (true, [])
    | .permErr =>
      (false, .printPermissionDenied ::
        (if !env.isAdmin then
          .askRetry :: (if env.confirmRetry then [.runAsAdmin] else [])
        else []))
    | .otherErr => (false, [.printOtherError])
  else (false, [])

/-- The `units` table of `analyze` (line 297). -/
def UNITS : List (List Char × Nat) :=
  [ (chars "b", 1), (chars "kb", 1024), (chars "mb", 1024 ^ 2)
  , (chars "gb", 1024 ^ 3), (chars "tb", 1024 ^ 4) ]

/-- Decimal-digit parse of the numeric part of a threshold string.  The
    source applies Python `float(...)`; on the integer literals the claims
    are about, `float` is exact and `int(value * unit)` coincides with
    natural-number arithmetic, so the model restricts to digit strings
    (`none` models a `ValueError`, and covers fractional inputs the
    claims never exercise). -/
def parseDigits : List Char → Option Nat
  | [] => none
  | l => l.foldl (fun acc c =>
      match acc with
      | none => none
      | some n => if c.isDigit then some (n * 10 + (c.toNat - 48)) else none)
      (some 0)

/-- Threshold parsing of `analyze` (lines 296-312): lower-case, match the
    last two characters against the unit table, else match the final
    character against the unit initials, else treat the whole string as a
    byte count. -/
def parse_threshold (s : List Char) : Option Nat :=
  let t := lowerStr s
  match (UNITS.find? (fun kv => kv.1 == t.drop (t.length - 2))).map (fun kv => kv.2) with
  | some u => (parseDigits (t.take (t.length - 2))).map (fun v => v * u)
  | none =>
    match t.getLast? with
    | some c =>
      match UNITS.find? (fun kv => kv.1.head? == some c) with
      | some kv => (parseDigits (t.take (t.length - 1))).map (fun v => v * kv.2)
      | none => parseDigits t
    | none => parseDigits t

/-- Selection kept by the duplicate filter for one path group: the first
    entry among those of maximal size (a later entry replaces the kept one
    only when strictly larger). -/
def keepLarger (o : Option ScanEntry) (e : ScanEntry) : Option ScanEntry :=
  match o with
  | none => some e
  | some a => if a.size < e.size then some e else some a

def firstMaxBySize (l : List ScanEntry) : Option ScanEntry :=
  l.foldl keepLarger none

/-- Sample subtree: directory `A` holding a 5-byte file and a subdirectory
    `B` holding another 5-byte file (10 bytes of files in total). -/
def sampleSubtreeA : FSEntry :=
  .dir (chars "A") false
    [ .file (chars "f1") 5 false
    , .dir (chars "B") false [ .file (chars "f2") 5 false ] ]

/-- Sample scan root containing only `sampleSubtreeA`. -/
def sampleTreeR : FSEntry := .dir (chars "R") false [sampleSubtreeA]

/-- First sample entry of a duplicate-path pair (file variant). -/
def dupEntryX : ScanEntry := ⟨chars "p", 3, true, false, chars "x"⟩

/-- Second sample entry of a duplicate-path pair, same path and size but
    a different tuple (directory variant). -/
def dupEntryY : ScanEntry := ⟨chars "p", 3, false, false, chars "y"⟩

/-- Sample reconciled entry of size 2 used for the ranking counterexample. -/
def rankEntryA : ScanEntry := ⟨chars "a", 2, true, false, chars "Unknown"⟩

/-- Sample reconciled entry of size 1 used for the ranking counterexample. -/
def rankEntryB : ScanEntry := ⟨chars "b", 1, true, false, chars "Unknown"⟩

/-- C9: the human-readable threshold string 500KB parses to exactly
    512000 bytes, and 2GB parses to exactly 2147483648 bytes. -/
theorem parse_threshold_500KB_and_2GB :
    parse_threshold (chars "500KB") = some 512000 ∧
    parse_threshold (chars "2GB") = some 2147483648 := by decide

/-- C2 counterexample: the path C:\windows\foo contains the segment
    windows, which equals the protected name Windows case-insensitively,
    yet classification returns (false, Unknown), not
    (false, System protected) — the protected check of
    `is_path_protected` is case-sensitive. -/
theorem is_safe_to_delete_case_counterexample :
    chars "windows" ∈ pathParts (chars "C:\\windows\\foo") ∧
    chars "Windows" ∈ PROTECTED_FOLDERS ∧
    lowerStr (chars "windows") = lowerStr (chars "Windows") ∧
    is_safe_to_delete (chars "C:\\windows\\foo") = (false, chars "Unknown") ∧
    is_safe_to_delete (chars "C:\\windows\\foo") ≠ (false, chars "System protected") := by
  decide

/-- C2 amended: for every path containing a segment that exactly
    (case-sensitively) equals a name of the protected set, classification
    returns (false, System protected), short-circuiting the space-hog
    table lookup. -/
theorem is_safe_to_delete_protected_segment (p part : List Char)
    (hmem : part ∈ pathParts p) (hprot : part ∈ PROTECTED_FOLDERS) :
    is_safe_to_delete p = (false, chars "System protected") := by
  have hp : is_path_protected p = true := by
    unfold is_path_protected
    rw [List.any_eq_true]
    exact ⟨part, hmem, by simpa using hprot⟩
  unfold is_safe_to_delete
  rw [hp]
  simp

/-- Witness for the amended C2 theorem: the path C:\Windows\temp is
    classified System protected although temp is a space-hog name. -/
theorem is_safe_to_delete_protected_segment_witness :
    is_safe_to_delete (chars "C:\\Windows\\temp") = (false, chars "System protected") :=
  is_safe_to_delete_protected_segment (chars "C:\\Windows\\temp") (chars "Windows")
    (by decide) (by decide)

/-- C10: whenever classification declares a path safe, the reason string
    contains the word safe case-insensitively, and the reason is a
    description from the space-hog table — a true verdict never arises
    from the protected or default branches. -/
theorem is_safe_reason_mentions_safe (p : List Char)
    (h : (is_safe_to_delete p).1 = true) :
    (chars "safe") <:+: lowerStr (is_safe_to_delete p).2 ∧
    ∃ pat, (pat, (is_safe_to_delete p).2) ∈ SPACE_HOGS := by
  unfold is_safe_to_delete at h ⊢
  by_cases hp : is_path_protected p
  · simp [hp] at h
  · simp only [hp, if_false, Bool.false_eq_true] at h ⊢
    cases hd : hogDescription (baseName p) with
    | none => rw [hd] at h; simp at h
    | some desc =>
      rw [hd] at h
      dsimp only at h ⊢
      have hdesc : ∃ pat, (pat, desc) ∈ SPACE_HOGS := by
        unfold hogDescription at hd
        cases hf : SPACE_HOGS.find? (fun kv =>
            baseName p == kv.1 || lowerStr (baseName p) == lowerStr kv.1) with
        | none => rw [hf] at hd; simp at hd
        | some kv =>
          rw [hf] at hd
          have hkv : kv.2 = desc := by simpa using hd
          refine ⟨kv.1, ?_⟩
          rw [← hkv]
          simpa using List.mem_of_find?_eq_some hf
      by_cases hs : (chars "safe") <:+: lowerStr desc
      · rw [if_pos (decide_eq_true hs)]
        exact ⟨hs, hdesc⟩
      · rw [if_neg (fun hc => hs (of_decide_eq_true hc))] at h
        simp at h

/-- Witness for C10 at the path C:\x\node_modules, whose classification
    is safe. -/
theorem is_safe_reason_mentions_safe_witness :
    (chars "safe") <:+: lowerStr (is_safe_to_delete (chars "C:\\x\\node_modules")).2 ∧
    ∃ pat, (pat, (is_safe_to_delete (chars "C:\\x\\node_modules")).2) ∈ SPACE_HOGS :=
  is_safe_reason_mentions_safe (chars "C:\\x\\node_modules") (by decide)

/-- C8 counterexample: on permission denied, `delete_item` itself runs the
    elevation attempt (`run_as_admin`), and its return value is the plain
    boolean false — identical to the value returned for an unrelated
    failure, so no distinct permission-denied error reaches the caller. -/
theorem delete_item_counterexample :
    (delete_item ⟨true, false, .permErr, false, true⟩).2.contains .runAsAdmin = true ∧
    (delete_item ⟨true, false, .permErr, false, true⟩).1 =
      (delete_item ⟨true, false, .otherErr, false, true⟩).1 := by decide

/-- C8 amended: on permission denied, `delete_item` returns false (the
    same value as for any other failure, not a distinct error), prints a
    permission-denied message, and itself handles elevation: when not
    admin and the user confirms, it attempts `run_as_admin`; when already
    admin, no elevation is attempted. -/
theorem delete_item_permission_denied (env : DeleteEnv)
    (hk : (env.isFile || env.isDir) = true) (hp : env.rmOutcome = .permErr) :
    (delete_item env).1 = false ∧
    DeleteAction.printPermissionDenied ∈ (delete_item env).2 ∧
    (env.isAdmin = false → env.confirmRetry = true →
      DeleteAction.runAsAdmin ∈ (delete_item env).2) ∧
    (env.isAdmin = true → DeleteAction.runAsAdmin ∉ (delete_item env).2) := by
  unfold delete_item
  rw [hk, hp]
  cases ha : env.isAdmin <;> cases hc : env.confirmRetry <;> simp

/-- Witness for the amended C8 theorem: a file whose removal raises
    permission denied, no admin rights, user confirms the retry. -/
theorem delete_item_permission_denied_witness :
    (delete_item ⟨true, true, .permErr, false, true⟩).1 = false ∧
    DeleteAction.printPermissionDenied ∈ (delete_item ⟨true, true, .permErr, false, true⟩).2 ∧
    ((⟨true, true, .permErr, false, true⟩ : DeleteEnv).isAdmin = false →
      (⟨true, true, .permErr, false, true⟩ : DeleteEnv).confirmRetry = true →
      DeleteAction.runAsAdmin ∈ (delete_item ⟨true, true, .permErr, false, true⟩).2) ∧
    ((⟨true, true, .permErr, false, true⟩ : DeleteEnv).isAdmin = true →
      DeleteAction.runAsAdmin ∉ (delete_item ⟨true, true, .permErr, false, true⟩).2) :=
  delete_item_permission_denied ⟨true, true, .permErr, false, true⟩ (by decide) rfl

/-- C1: evaluation showing the scanner size bug.  On a root whose
    directory A holds 10 bytes of files (a 5-byte file plus a 5-byte file
    inside subdirectory B), the emitted entry for A reports 15 bytes at
    threshold 0 — `sub_size` sums the sizes of all emitted tuples, so the
    entry of B is counted on top of the files it contains — and at
    threshold 6 directory A is not emitted at all, although 10 bytes of
    files lie beneath it: the reported size is neither the sum of the
    file sizes beneath A nor independent of the threshold. -/
theorem scan_directory_size_code_bug :
    ((scanFS (chars "C:\\R") false 0 sampleTreeR).find?
      (fun e => e.path == chars "C:\\R\\A")).map (fun e => e.size) = some 15 ∧
    totalFileBytes sampleSubtreeA = 10 ∧
    (scanFS (chars "C:\\R") false 6 sampleTreeR).find?
      (fun e => e.path == chars "C:\\R\\A") = none := by decide

theorem replaceLarger_path (e x : ScanEntry) :
    (if x.path == e.path && decide (x.size < e.size) then e else x).path = x.path := by
  split
  · next hcond =>
    have h1 : (x.path == e.path) = true := (Bool.and_eq_true_iff.mp hcond).1
    have h2 : x.path = e.path := by simpa using h1
    exact h2.symm
  · rfl

theorem find?_map_pathKeep (f : ScanEntry → ScanEntry) (hf : ∀ x, (f x).path = x.path)
    (q : List Char) :
    ∀ l : List ScanEntry, (l.map f).find? (fun x => x.path == q) =
      (l.find? (fun x => x.path == q)).map f
  | [] => rfl
  | x :: xs => by
    rw [List.map_cons]
    by_cases h : (x.path == q) = true
    · have h' : ((f x).path == q) = true := by rw [hf]; exact h
      rw [@List.find?_cons_of_pos _ (fun y => y.path == q) (f x) (List.map f xs) h',
        @List.find?_cons_of_pos _ (fun y => y.path == q) x xs h, Option.map_some']
    · have h' : ¬((f x).path == q) = true := by rw [hf]; exact h
      rw [@List.find?_cons_of_neg _ (fun y => y.path == q) (f x) (List.map f xs) h',
        @List.find?_cons_of_neg _ (fun y => y.path == q) x xs h]
      exact find?_map_pathKeep f hf q xs

theorem find?_insertEntry (acc : List ScanEntry) (e : ScanEntry) (q : List Char) :
    (insertEntry acc e).find? (fun x => x.path == q) =
      if (e.path == q) = true then keepLarger (acc.find? (fun x => x.path == q)) e
      else acc.find? (fun x => x.path == q) := by
  unfold insertEntry
  by_cases hin : acc.any (fun x => x.path == e.path) = true
  · rw [if_pos hin]
    rw [find?_map_pathKeep _ (fun x => replaceLarger_path e x) q acc]
    cases hacc : acc.find? (fun x => x.path == q) with
    | none =>
      by_cases hq : (e.path == q) = true
      · exfalso
        obtain ⟨x, hx, hxe⟩ := List.any_eq_true.mp hin
        have hxq : (x.path == q) = true := by
          have h1 : x.path = e.path := by simpa using hxe
          have h2 : e.path = q := by simpa using hq
          simp [h1, h2]
        exact (List.find?_eq_none.mp hacc x hx) hxq
      · rw [if_neg hq]
        rfl
    | some a =>
      have haq : a.path = q := by simpa using List.find?_some hacc
      by_cases hq : (e.path == q) = true
      · have heq : e.path = q := by simpa using hq
        have hae : (a.path == e.path) = true := by simp [haq, heq]
        rw [if_pos hq, Option.map_some']
        show some (if a.path == e.path && decide (a.size < e.size) then e else a) =
          keepLarger (some a) e
        rw [hae, Bool.true_and]
        show _ = if a.size < e.size then some e else some a
        by_cases hsz : a.size < e.size
        · rw [if_pos (decide_eq_true hsz), if_pos hsz]
        · rw [if_neg (fun hc => hsz (of_decide_eq_true hc)), if_neg hsz]
      · have heq : a.path ≠ e.path := by
          intro hcon
          exact hq (by simp [← hcon, haq])
        have hae : (a.path == e.path) = false := by simpa using heq
        rw [if_neg hq, Option.map_some']
        show some (if a.path == e.path && decide (a.size < e.size) then e else a) = some a
        rw [hae, Bool.false_and, if_neg Bool.false_ne_true]
  · rw [if_neg hin]
    rw [List.find?_append]
    cases hacc : acc.find? (fun x => x.path == q) with
    | none =>
      by_cases hq : (e.path == q) = true
      · rw [if_pos hq, @List.find?_cons_of_pos _ (fun x => x.path == q) e [] hq]
        rfl
      · rw [if_neg hq, @List.find?_cons_of_neg _ (fun x => x.path == q) e [] hq]
        rfl
    | some a =>
      have haq : a.path = q := by simpa using List.find?_some hacc
      by_cases hq : (e.path == q) = true
      · exfalso
        apply hin
        rw [List.any_eq_true]
        have heq : e.path = q := by simpa using hq
        exact ⟨a, List.mem_of_find?_eq_some hacc, by simp [haq, heq]⟩
      · rw [if_neg hq]
        rfl

theorem find?_foldl_insertEntry (q : List Char) :
    ∀ (es acc : List ScanEntry),
    ((es.foldl insertEntry acc).find? (fun x => x.path == q)) =
      (es.filter (fun x => x.path == q)).foldl keepLarger
        (acc.find? (fun x => x.path == q))
  | [], _ => rfl
  | e :: es, acc => by
    rw [List.foldl_cons, find?_foldl_insertEntry q es (insertEntry acc e),
      find?_insertEntry]
    by_cases hq : (e.path == q) = true
    · rw [if_pos hq, @List.filter_cons_of_pos _ (fun x => x.path == q) e es hq,
        List.foldl_cons]
    · rw [if_neg hq, @List.filter_cons_of_neg _ (fun x => x.path == q) e es hq]

/-- C4 counterexample: two distinct entries share the path p with equal
    sizes; reconciliation keeps the first-seen entry, not the last-seen
    one as the claim states. -/
theorem reconcile_tie_counterexample :
    dupEntryX ≠ dupEntryY ∧
    dupEntryX.path = dupEntryY.path ∧
    dupEntryX.size = dupEntryY.size ∧
    reconcile [dupEntryX, dupEntryY] = [dupEntryX] := by decide

/-- C4 amended: reconciliation groups entries by exact path string, and
    for each path keeps the first-seen entry among those with maximal
    size: a later entry replaces the kept one only when its size is
    strictly larger, so on ties the earlier entry wins. -/
theorem reconcile_keeps_first_max (es : List ScanEntry) (q : List Char) :
    (reconcile es).find? (fun x => x.path == q) =
      firstMaxBySize (es.filter (fun x => x.path == q)) := by
  unfold reconcile firstMaxBySize
  rw [find?_foldl_insertEntry q es []]
  rfl

theorem map_path_insertEntry (acc : List ScanEntry) (e : ScanEntry) :
    (insertEntry acc e).map (fun x => x.path) =
      if acc.any (fun x => x.path == e.path) then acc.map (fun x => x.path)
      else acc.map (fun x => x.path) ++ [e.path] := by
  unfold insertEntry
  by_cases h : acc.any (fun x => x.path == e.path) = true
  · rw [if_pos h, if_pos h, List.map_map]
    exact List.map_congr_left (fun x _ => replaceLarger_path e x)
  · rw [if_neg h, if_neg h, List.map_append]
    rfl

theorem nodup_paths_insertEntry (acc : List ScanEntry) (e : ScanEntry)
    (h : (acc.map (fun x => x.path)).Nodup) :
    ((insertEntry acc e).map (fun x => x.path)).Nodup := by
  rw [map_path_insertEntry]
  split
  · exact h
  · next hany =>
    rw [List.nodup_append]
    refine ⟨h, List.nodup_singleton _, ?_⟩
    intro a ha hb
    rw [List.mem_singleton] at hb
    subst hb
    apply hany
    rw [List.any_eq_true]
    obtain ⟨x, hx, hxe⟩ := List.mem_map.mp ha
    exact ⟨x, hx, by simp [hxe]⟩

theorem nodup_paths_foldl_insertEntry :
    ∀ (es acc : List ScanEntry), (acc.map (fun x => x.path)).Nodup →
    ((es.foldl insertEntry acc).map (fun x => x.path)).Nodup
  | [], _, h => h
  | e :: es, acc, h => by
    rw [List.foldl_cons]
    exact nodup_paths_foldl_insertEntry es (insertEntry acc e)
      (nodup_paths_insertEntry acc e h)

/-- C5: the reconciled result set never holds two entries with an
    identical path — the path strings of the output are pairwise
    distinct. -/
theorem reconcile_paths_nodup (es : List ScanEntry) :
    ((reconcile es).map (fun x => x.path)).Nodup := by
  unfold reconcile
  exact nodup_paths_foldl_insertEntry es [] List.nodup_nil

theorem scanFiles_filter_hidden (p : List Char) (t : Nat) :
    ∀ cs : List FSEntry,
    scanFiles p true t (cs.filter FSEntry.hiddenFlag) = scanFiles p true t cs
  | [] => rfl
  | .file n sz h :: cs => by
    cases h with
    | false => simp [scanFiles, FSEntry.hiddenFlag, scanFiles_filter_hidden p t cs]
    | true => simp [scanFiles, FSEntry.hiddenFlag, scanFiles_filter_hidden p t cs]
  | .dir n h gs :: cs => by
    cases h with
    | false => simp [scanFiles, FSEntry.hiddenFlag, scanFiles_filter_hidden p t cs]
    | true => simp [scanFiles, FSEntry.hiddenFlag, scanFiles_filter_hidden p t cs]

theorem scanSubs_filter_hidden (p : List Char) (t : Nat) :
    ∀ cs : List FSEntry,
    scanSubs p true t (cs.filter FSEntry.hiddenFlag) = scanSubs p true t cs
  | [] => rfl
  | .file n sz h :: cs => by
    cases h with
    | false => simp [scanSubs, FSEntry.hiddenFlag, scanSubs_filter_hidden p t cs]
    | true => simp [scanSubs, FSEntry.hiddenFlag, scanSubs_filter_hidden p t cs]
  | .dir n h gs :: cs => by
    cases h with
    | false => simp [scanSubs, FSEntry.hiddenFlag, scanSubs_filter_hidden p t cs]
    | true => simp [scanSubs, FSEntry.hiddenFlag, scanSubs_filter_hidden p t cs]

/-- C7: scanning a directory in hidden-only mode prunes every non-hidden
    child entirely — the scan of the directory equals the scan of the
    directory with its non-hidden children removed, so a non-hidden child
    contributes no emitted entry, no bytes to any total, and is never
    recursed into. -/
theorem scan_hiddenOnly_prunes (p : List Char) (t : Nat) (n : List Char)
    (h : Bool) (cs : List FSEntry) :
    scanFS p true t (.dir n h cs) =
      scanFS p true t (.dir n h (cs.filter FSEntry.hiddenFlag)) := by
  rw [scanFS, scanFS, scanFiles_filter_hidden, scanSubs_filter_hidden]

theorem splitSeps_ne_nil : ∀ l : List Char, splitSeps l ≠ []
  | [] => by simp [splitSeps]
  | c :: cs => by
    simp only [splitSeps]
    cases hs : splitSeps cs with
    | nil => simp
    | cons h t => by_cases hc : isSep c <;> simp [hc]

theorem splitSeps_append_sep (c : Char) (hc : isSep c = true) :
    ∀ xs ys : List Char, splitSeps (xs ++ c :: ys) = splitSeps xs ++ splitSeps ys
  | [], ys => by
    obtain ⟨h, t, hht⟩ := List.exists_cons_of_ne_nil (splitSeps_ne_nil ys)
    simp [splitSeps, hht, hc]
  | x :: xs, ys => by
    have ih := splitSeps_append_sep c hc xs ys
    obtain ⟨h, t, hht⟩ := List.exists_cons_of_ne_nil (splitSeps_ne_nil xs)
    rw [List.cons_append]
    simp only [splitSeps, ih, hht, List.cons_append]
    by_cases hx : isSep x <;> simp [hx]

theorem splitSeps_of_no_sep :
    ∀ xs : List Char, (∀ c ∈ xs, isSep c = false) → splitSeps xs = [xs]
  | [], _ => rfl
  | x :: xs, h => by
    have ih := splitSeps_of_no_sep xs (fun c hc => h c (List.mem_cons_of_mem x hc))
    have hx : isSep x = false := h x (List.mem_cons_self x xs)
    simp [splitSeps, ih, hx]

theorem protected_names_wf :
    ∀ q ∈ PROTECTED_FOLDERS, q ≠ [] ∧ q ≠ chars "." ∧ ∀ c ∈ q, isSep c = false := by
  decide

theorem lowerChar_of_isSep (c : Char) (hc : isSep c = true) : lowerChar c = c := by
  unfold isSep at hc
  cases of_decide_eq_true hc with
  | inl h => subst h; decide
  | inr h => subst h; decide

theorem is_path_protected_of_mem (p part : List Char)
    (hmem : part ∈ pathParts p) (hprot : part ∈ PROTECTED_FOLDERS) :
    is_path_protected p = true := by
  unfold is_path_protected
  rw [List.any_eq_true]
  exact ⟨part, hmem, by simpa using hprot⟩

theorem charNorm_of_isSep (c : Char) (hc : isSep c = true) : charNorm c = SEP := by
  unfold isSep at hc
  cases of_decide_eq_true hc with
  | inl h => subst h; decide
  | inr h => subst h; decide

theorem isSep_of_charNorm_eq (c : Char) (hc : charNorm c = SEP) : isSep c = true := by
  unfold charNorm at hc
  by_cases h : c = '/'
  · subst h; decide
  · rw [if_neg h] at hc
    subst hc
    decide

theorem charNorm_of_no_sep (c : Char) (hc : isSep c = false) : charNorm c = c := by
  have h : ¬(c = '/' ∨ c = '\\') := of_decide_eq_false hc
  unfold charNorm
  rw [if_neg (fun hcc => h (Or.inl hcc))]

theorem normSeps_of_no_sep :
    ∀ l : List Char, (∀ c ∈ l, isSep c = false) → normSeps l = l
  | [], _ => rfl
  | c :: cs, h => by
    unfold normSeps
    rw [List.map_cons, charNorm_of_no_sep c (h c (List.mem_cons_self c cs))]
    have ih := normSeps_of_no_sep cs (fun x hx => h x (List.mem_cons_of_mem c hx))
    unfold normSeps at ih
    rw [ih]

theorem splitRoot_shape (q : List Char) (hq : q.take 2 ≠ [SEP, SEP]) :
    q = (splitRoot q).1 ++ (splitRoot q).2.1 ++ (splitRoot q).2.2 ∧
    (∀ c ∈ (splitRoot q).1, c ≠ SEP) ∧
    ((splitRoot q).2.1 = [] ∨ (splitRoot q).2.1 = [SEP]) := by
  match q with
  | [] => exact ⟨rfl, by simp [splitRoot], Or.inl rfl⟩
  | [c1] =>
    by_cases h1 : c1 = SEP
    · subst h1
      simp [splitRoot]
    · simp [splitRoot, h1]
  | c1 :: c2 :: rest =>
    by_cases h1 : c1 = SEP
    · by_cases h2 : c2 = SEP
      · exact absurd (by rw [h1, h2] ; rfl : (c1 :: c2 :: rest).take 2 = [SEP, SEP]) hq
      · subst h1
        simp [splitRoot, h2]
    · by_cases h2 : c2 = ':'
      · subst h2
        match rest with
        | [] => simp [splitRoot, h1, (by decide : ((':' : Char) = SEP) = False)]
        | c3 :: rest2 =>
          by_cases h3 : c3 = SEP
          · subst h3
            simp [splitRoot, h1, (by decide : ((':' : Char) = SEP) = False)]
          · simp [splitRoot, h1, h3, (by decide : ((':' : Char) = SEP) = False)]
      · simp [splitRoot, h1, h2]

theorem rel_decomp :
    ∀ (drv na rest root rel : List Char),
    na ++ SEP :: rest = drv ++ root ++ rel →
    (∀ c ∈ drv, c ≠ SEP) →
    (root = [] ∨ root = [SEP]) →
    (∃ x, rel = x ++ SEP :: rest) ∨ rel = rest
  | [], na, rest, root, rel, he, _, hr => by
    cases hr with
    | inl h =>
      subst h
      left
      exact ⟨na, by simpa using he.symm⟩
    | inr h =>
      subst h
      cases na with
      | nil =>
        right
        simpa using he.symm
      | cons c na2 =>
        left
        rw [List.cons_append, List.nil_append, List.cons_append, List.nil_append] at he
        have h2 : na2 ++ SEP :: rest = rel := (List.cons.injEq _ _ _ _ ▸ he).2
        exact ⟨na2, h2.symm⟩
  | d :: drv2, na, rest, root, rel, he, hd, hr => by
    cases na with
    | nil =>
      exfalso
      rw [List.nil_append] at he
      simp only [List.cons_append] at he
      have : SEP = d := (List.cons.injEq _ _ _ _ ▸ he).1
      exact hd d (List.mem_cons_self d drv2) this.symm
    | cons c na2 =>
      simp only [List.cons_append] at he
      have h2 : na2 ++ SEP :: rest = drv2 ++ root ++ rel := (List.cons.injEq _ _ _ _ ▸ he).2
      exact rel_decomp drv2 na2 rest root rel h2
        (fun x hx => hd x (List.mem_cons_of_mem d hx)) hr

theorem mem_components (rel prot : List Char) (hne : prot ≠ [])
    (hnd : prot ≠ chars ".") (hns : ∀ c ∈ prot, isSep c = false)
    (h : (∃ x y, rel = x ++ SEP :: (prot ++ SEP :: y)) ∨
         (∃ y, rel = prot ++ SEP :: y) ∨
         (∃ x, rel = x ++ SEP :: prot) ∨ rel = prot) :
    prot ∈ (splitSeps rel).filter (fun part => !part.isEmpty && !(part == chars ".")) := by
  have hSEP : isSep SEP = true := by decide
  have hkeep : (!prot.isEmpty && !(prot == chars ".")) = true := by
    have h1 : prot.isEmpty = false := by
      cases prot with
      | nil => exact absurd rfl hne
      | cons c cs => rfl
    have h2 : (prot == chars ".") = false := beq_eq_false_iff_ne.mpr hnd
    rw [h1, h2]
    rfl
  apply List.mem_filter.mpr
  refine ⟨?_, hkeep⟩
  obtain ⟨x, y, hrel⟩ | ⟨y, hrel⟩ | ⟨x, hrel⟩ | hrel := h
  · subst hrel
    rw [splitSeps_append_sep SEP hSEP x (prot ++ SEP :: y),
      splitSeps_append_sep SEP hSEP prot y, splitSeps_of_no_sep prot hns]
    exact List.mem_append_right _ (List.mem_append_left _ (List.mem_singleton.mpr rfl))
  · subst hrel
    rw [splitSeps_append_sep SEP hSEP prot y, splitSeps_of_no_sep prot hns]
    exact List.mem_append_left _ (List.mem_singleton.mpr rfl)
  · subst hrel
    rw [splitSeps_append_sep SEP hSEP x prot, splitSeps_of_no_sep prot hns]
    exact List.mem_append_right _ (List.mem_singleton.mpr rfl)
  · rw [hrel, splitSeps_of_no_sep prot hns]
    exact List.mem_singleton.mpr rfl

theorem mem_pathParts_of_decomp (p a b prot : List Char) (sep : Char)
    (hsep : isSep sep = true) (hne : prot ≠ []) (hnd : prot ≠ chars ".")
    (hns : ∀ c ∈ prot, isSep c = false)
    (hnu : (p.take 2).all isSep = false)
    (hp : p = a ++ sep :: prot ++ sep :: b ∨ p = a ++ sep :: prot) :
    prot ∈ pathParts p := by
  have hprotN : normSeps prot = prot := normSeps_of_no_sep prot hns
  have hsepN : charNorm sep = SEP := charNorm_of_isSep sep hsep
  have hqdec : ∃ rest, normSeps p = normSeps a ++ SEP :: rest ∧
      (rest = prot ++ SEP :: normSeps b ∨ rest = prot) := by
    cases hp with
    | inl h =>
      refine ⟨prot ++ SEP :: normSeps b, ?_, Or.inl rfl⟩
      rw [h]
      show (a ++ sep :: prot ++ sep :: b).map charNorm =
        a.map charNorm ++ SEP :: (prot ++ SEP :: b.map charNorm)
      simp only [List.map_append, List.map_cons, hsepN]
      have : prot.map charNorm = prot := hprotN
      rw [this]
      simp
    | inr h =>
      refine ⟨prot, ?_, Or.inr rfl⟩
      rw [h]
      show (a ++ sep :: prot).map charNorm = a.map charNorm ++ SEP :: prot
      simp only [List.map_append, List.map_cons, hsepN]
      have : prot.map charNorm = prot := hprotN
      rw [this]
  obtain ⟨rest, hq, hrest⟩ := hqdec
  have hq2 : (normSeps p).take 2 ≠ [SEP, SEP] := by
    intro hcon
    have hmt : (p.take 2).map charNorm = [SEP, SEP] := by
      rw [List.map_take]
      exact hcon
    cases hpt : p.take 2 with
    | nil => rw [hpt] at hmt; simp at hmt
    | cons d1 t1 =>
      cases t1 with
      | nil => rw [hpt] at hmt; simp at hmt
      | cons d2 t2 =>
        rw [hpt] at hmt
        simp only [List.map_cons, List.cons.injEq] at hmt
        obtain ⟨hd1, hd2, ht2⟩ := hmt
        have h1 := isSep_of_charNorm_eq d1 hd1
        have h2 := isSep_of_charNorm_eq d2 hd2
        have ht2e : t2 = [] := by
          cases t2 with
          | nil => rfl
          | cons z zs => simp at ht2
        subst ht2e
        rw [hpt] at hnu
        simp [h1, h2] at hnu
  obtain ⟨heq, hdrv, hroot⟩ := splitRoot_shape (normSeps p) hq2
  have hcomb : normSeps a ++ SEP :: rest =
      (splitRoot (normSeps p)).1 ++ (splitRoot (normSeps p)).2.1 ++
        (splitRoot (normSeps p)).2.2 := by
    rw [← hq]
    exact heq
  have hreldec := rel_decomp (splitRoot (normSeps p)).1 (normSeps a) rest
    (splitRoot (normSeps p)).2.1 (splitRoot (normSeps p)).2.2 hcomb hdrv hroot
  have hmem : prot ∈ pathComponents p := by
    unfold pathComponents
    apply mem_components _ prot hne hnd hns
    obtain ⟨x, hx⟩ | hx := hreldec
    · obtain hr | hr := hrest
      · exact Or.inl ⟨x, normSeps b, by rw [hx, hr]⟩
      · exact Or.inr (Or.inr (Or.inl ⟨x, by rw [hx, hr]⟩))
    · obtain hr | hr := hrest
      · exact Or.inr (Or.inl ⟨normSeps b, by rw [hx, hr]⟩)
      · exact Or.inr (Or.inr (Or.inr (by rw [hx, hr])))
  unfold pathParts
  split
  · exact hmem
  · exact List.mem_cons_of_mem _ hmem

theorem unc_anchor_absorbs_protected :
    pathParts (chars "\\\\server\\Windows\\x") =
      [chars "\\\\server\\Windows\\", chars "x"] ∧
    is_path_protected (chars "\\\\server\\Windows\\x") = false ∧
    is_protected (chars "\\\\server\\Windows\\x") = true := by decide

theorem drive_relative_parts :
    pathParts (chars "C:Windows") = [chars "C:", chars "Windows"] ∧
    is_path_protected (chars "C:Windows") = true ∧
    is_protected (chars "C:Windows") = false := by decide

/-- C3 counterexample: the path Windows\foo actually contains the
    protected name Windows as a full path segment, yet the
    classification-time check `is_path_protected` answers true while the
    presentation-time check `is_protected` answers false (it requires a
    separator before the protected name, which a leading segment lacks). -/
theorem protected_checks_disagree_counterexample :
    chars "Windows" ∈ pathParts (chars "Windows\\foo") ∧
    chars "Windows" ∈ PROTECTED_FOLDERS ∧
    is_path_protected (chars "Windows\\foo") = true ∧
    is_protected (chars "Windows\\foo") = false := by decide

/-- C3 amended: the two checks agree (both answering true) on every path
    that does not open with two separators (the UNC form, whose leading
    host and share pathlib absorbs into the drive anchor) and in which a
    protected name occurs with exact case as a path segment delimited on
    the left by a separator and on the right by the same separator or
    the end of the string; outside that shape (UNC anchor, leading
    segment without a separator, drive-relative juncture, mixed
    separators, or case differences) the checks can disagree. -/
theorem protected_checks_agree_delimited (p a b prot : List Char) (sep : Char)
    (hprot : prot ∈ PROTECTED_FOLDERS) (hsep : isSep sep = true)
    (hnu : (p.take 2).all isSep = false)
    (hp : p = a ++ sep :: prot ++ sep :: b ∨ p = a ++ sep :: prot) :
    is_path_protected p = true ∧ is_protected p = true := by
  obtain ⟨hne, hnd, hns⟩ := protected_names_wf prot hprot
  have hsep' : sep = '/' ∨ sep = '\\' := by
    unfold isSep at hsep
    exact of_decide_eq_true hsep
  have hlc : lowerChar sep = sep := lowerChar_of_isSep sep hsep
  constructor
  · exact is_path_protected_of_mem p prot
      (mem_pathParts_of_decomp p a b prot sep hsep hne hnd hns hnu hp) hprot
  · unfold is_protected
    rw [List.any_eq_true]
    refine ⟨prot, hprot, ?_⟩
    unfold protSegmentHit
    cases hp with
    | inl h =>
      have hlp : lowerStr p = lowerStr a ++ sep :: lowerStr prot ++ sep :: lowerStr b := by
        rw [h]
        simp [lowerStr, hlc]
      cases hsep' with
      | inl hfs =>
        subst hfs
        have hinf : ('/' :: lowerStr prot ++ ['/']) <:+: lowerStr p :=
          ⟨lowerStr a, lowerStr b, by rw [hlp]; simp⟩
        simp only [Bool.or_eq_true, decide_eq_true_eq]
        tauto
      | inr hbs =>
        subst hbs
        have hinf : ('\\' :: lowerStr prot ++ ['\\']) <:+: lowerStr p :=
          ⟨lowerStr a, lowerStr b, by rw [hlp]; simp⟩
        simp only [Bool.or_eq_true, decide_eq_true_eq]
        tauto
    | inr h =>
      have hlp : lowerStr p = lowerStr a ++ sep :: lowerStr prot := by
        rw [h]
        simp [lowerStr, hlc]
      cases hsep' with
      | inl hfs =>
        subst hfs
        have hsuf : ('/' :: lowerStr prot) <:+ lowerStr p :=
          ⟨lowerStr a, by rw [hlp]⟩
        simp only [Bool.or_eq_true, decide_eq_true_eq]
        tauto
      | inr hbs =>
        subst hbs
        have hsuf : ('\\' :: lowerStr prot) <:+ lowerStr p :=
          ⟨lowerStr a, by rw [hlp]⟩
        simp only [Bool.or_eq_true, decide_eq_true_eq]
        tauto

/-- Witness for the amended C3 theorem at the concrete path C:\Windows\x. -/
theorem protected_checks_agree_delimited_witness :
    is_path_protected (chars "C:\\Windows\\x") = true ∧
    is_protected (chars "C:\\Windows\\x") = true :=
  protected_checks_agree_delimited (chars "C:\\Windows\\x") (chars "C:") (chars "x")
    (chars "Windows") '\\' (by decide) (by decide) (by decide) (Or.inl (by decide))

theorem sizeDesc_trans : ∀ a b c : ScanEntry,
    (fun x y : ScanEntry => decide (y.size ≤ x.size)) a b = true →
    (fun x y : ScanEntry => decide (y.size ≤ x.size)) b c = true →
    (fun x y : ScanEntry => decide (y.size ≤ x.size)) a c = true := by
  intro a b c hab hbc
  simp only [decide_eq_true_eq] at hab hbc ⊢
  omega

theorem sizeDesc_total : ∀ a b : ScanEntry,
    ((fun x y : ScanEntry => decide (y.size ≤ x.size)) a b ||
      (fun x y : ScanEntry => decide (y.size ≤ x.size)) b a) = true := by
  intro a b
  simp only [Bool.or_eq_true, decide_eq_true_eq]
  omega

/-- C6 counterexample: with two reconciled entries and top count minus
    one, the displayed view is not empty — the Python slice with a
    negative bound drops trailing elements rather than yielding the empty
    view the claim asserts for every nonpositive count. -/
theorem rankedView_negative_counterexample :
    rankedView (-1) [rankEntryA, rankEntryB] ≠ [] := by
  have h1 : reconcile [rankEntryA, rankEntryB] = [rankEntryA, rankEntryB] := by decide
  have h2 : sortBySizeDesc [rankEntryA, rankEntryB] = [rankEntryA, rankEntryB] :=
    List.mergeSort_of_sorted (by decide)
  unfold rankedView
  rw [h1, h2]
  decide

/-- C6 amended: ranking stable-sorts the reconciled entries descending by
    size and truncates with Python slice semantics: a count of zero
    yields the empty view, a count at least the set size yields the whole
    sorted set, and a negative count yields the sorted set with its last
    elements dropped (not the empty view); equal-size entries keep their
    reconciled relative order. -/
theorem rankedView_spec (es : List ScanEntry) (k m : Nat) :
    (sortBySizeDesc (reconcile es)).Pairwise (fun x y => y.size ≤ x.size) ∧
    (sortBySizeDesc (reconcile es)).Perm (reconcile es) ∧
    rankedView 0 es = [] ∧
    rankedView (((reconcile es).length + k : Nat) : Int) es = sortBySizeDesc (reconcile es) ∧
    rankedView (-(((1 + m : Nat) : Int))) es =
      (sortBySizeDesc (reconcile es)).take ((reconcile es).length - (1 + m)) ∧
    ∀ s : Nat, (sortBySizeDesc (reconcile es)).filter (fun x => x.size == s) =
      (reconcile es).filter (fun x => x.size == s) := by
  refine ⟨?_, ?_, ?_, ?_, ?_, ?_⟩
  · exact (List.sorted_mergeSort sizeDesc_trans sizeDesc_total (reconcile es)).imp
      (fun h => of_decide_eq_true h)
  · exact List.mergeSort_perm (reconcile es) _
  · unfold rankedView pySlice
    simp
  · unfold rankedView pySlice
    rw [if_pos (by exact_mod_cast Int.ofNat_nonneg _)]
    apply List.take_of_length_le
    rw [sortBySizeDesc, List.length_mergeSort]
    omega
  · unfold rankedView pySlice
    rw [if_neg (by omega)]
    rw [sortBySizeDesc, List.length_mergeSort]
    congr 1
    omega
  · intro s
    have hpw : ((reconcile es).filter (fun x => x.size == s)).Pairwise
        (fun x y : ScanEntry => decide (y.size ≤ x.size)) := by
      apply List.pairwise_of_forall_mem_list
      intro x hx y hy
      have hxs : x.size = s := by simpa using (List.mem_filter.mp hx).2
      have hys : y.size = s := by simpa using (List.mem_filter.mp hy).2
      simp [hxs, hys]
    have hsub : List.Sublist ((reconcile es).filter (fun x => x.size == s))
        (sortBySizeDesc (reconcile es)) :=
      List.sublist_mergeSort sizeDesc_trans sizeDesc_total hpw
        (List.filter_sublist (reconcile es))
    have hsub2 : List.Sublist ((reconcile es).filter (fun x => x.size == s))
        ((sortBySizeDesc (reconcile es)).filter (fun x => x.size == s)) := by
      have := hsub.filter (fun x => x.size == s)
      simpa using this
    have hlen : ((sortBySizeDesc (reconcile es)).filter (fun x => x.size == s)).length =
        ((reconcile es).filter (fun x => x.size == s)).length :=
      ((List.mergeSort_perm (reconcile es) _).filter _).length_eq
    exact (hsub2.eq_of_length hlen.symm).symm
